import Mathlib

/-!
Formal model of the dense-matrix LU solver in
`Exercises/2020/06-optimization-debugging-profiling/01-matrix-solution-3/matrix.cpp`.

The `double` arithmetic of the source is modelled exactly by `ℚ`.  The dense
container (`matrix.hpp`) is the external collaborator of the design: its
storage is modelled as a total function `ℕ → ℕ → ℚ`, element access
`index(i, j)` is function application, and an in-place write is a pointwise
functional update.  The `std::vector<int> p` permutation is modelled as a
function `ℕ → ℕ`.  Every `for` loop of the source becomes a structurally
recursive function on an explicit iteration count (the loop's trip count),
carrying the loop indices and the mutable state as arguments, so that every
definition is executable on concrete inputs.

Note on division: the source divides `double`s unconditionally; a division by
zero yields `inf`/`NaN` there, while in `ℚ` it yields the junk value `0`.
Every theorem whose conclusion depends on a quotient therefore carries the
corresponding nonzero hypothesis, and the singular-matrix results only state
facts (such as a diagonal entry being exactly zero) that hold in both
semantics.
-/

namespace MatrixCpp

/-- Physical matrix storage: the source's `index(i, j)` becomes `M i j`. -/
abbrev Mat : Type := ℕ → ℕ → ℚ

/-- Right-hand-side storage: `rhs.get_data()[k]` becomes `b k`. -/
abbrev Vec : Type := ℕ → ℚ

/-- The permutation array `std::vector<int> p`. -/
abbrev Perm : Type := ℕ → ℕ

/-- In-place write `index(r, c) = v` on the matrix storage. -/
def updM (M : Mat) (r c : ℕ) (v : ℚ) : Mat :=
  fun i j => if i = r ∧ j = c then v else M i j

/-- In-place write `b[i] = v` on vector storage. -/
def updV (b : Vec) (i : ℕ) (v : ℚ) : Vec :=
  fun k => if k = i then v else b k

/-- The source's `std::swap(p[a], p[b])`. -/
def swapFun (p : Perm) (a b : ℕ) : Perm :=
  fun k => if k = a then p b else if k = b then p a else p k

/-- The pivot-search loop of `matrix::factorize`
(`for (kk = ii + 1; kk < m; ++kk) if (index(p[kk], ii) > maxpivot) ...`).
`fuel` is the remaining trip count, `kk` the loop index, and
`maxpivot`/`imaxpivot` the running state; the result is the final
`(maxpivot, imaxpivot)` pair. -/
def pivotScan (M : Mat) (p : Perm) (ii : ℕ) : ℕ → ℕ → ℚ → ℕ → ℚ × ℕ
  | 0, _, maxpivot, imaxpivot => (maxpivot, imaxpivot)
  | fuel + 1, kk, maxpivot, imaxpivot =>
    if maxpivot < M (p kk) ii then
      pivotScan M p ii fuel (kk + 1) (M (p kk) ii) kk
    else
      pivotScan M p ii fuel (kk + 1) maxpivot imaxpivot

/-- The pivot row index `imaxpivot` selected for column `ii` of an `m`-row
matrix: the scan starts from `maxpivot = index(p[ii], ii), imaxpivot = ii`. -/
def imaxOf (M : Mat) (p : Perm) (ii m : ℕ) : ℕ :=
  (pivotScan M p ii (m - (ii + 1)) (ii + 1) (M (p ii) ii) ii).2

/-- The row-update loop of `matrix::factorize`
(`for (kk = ii + 1; kk < n; ++kk)
   index(p[jj], kk) += -index(p[ii], kk) * index(p[jj], ii);`),
with `pivRow = p[ii]` and `tgtRow = p[jj]` fixed. -/
def kkLoop (pivRow tgtRow ii : ℕ) : ℕ → ℕ → Mat → Mat
  | 0, _, M => M
  | fuel + 1, kk, M =>
    kkLoop pivRow tgtRow ii fuel (kk + 1)
      (updM M tgtRow kk (M tgtRow kk + -(M pivRow kk) * M tgtRow ii))

/-- The elimination loop of `matrix::factorize` over the rows below the pivot
(`for (jj = ii + 1; jj < m; ++jj)`): first
`index(p[jj], ii) = index(p[jj], ii) / pivot`, then the `kk` row update. -/
def jjLoop (p : Perm) (ii : ℕ) (pivot : ℚ) (n : ℕ) : ℕ → ℕ → Mat → Mat
  | 0, _, M => M
  | fuel + 1, jj, M =>
    jjLoop p ii pivot n fuel (jj + 1)
      (kkLoop (p ii) (p jj) ii (n - (ii + 1)) (ii + 1)
        (updM M (p jj) ii (M (p jj) ii / pivot)))

/-- The outer pivot-column loop of `matrix::factorize`
(`for (ii = 0; ii < m - 1; ++ii)`): select the pivot row, swap the
permutation entries if the selected row differs, read the pivot
(`pivot = index(p[ii], ii)`), then eliminate the rows below. -/
def iiLoop (n : ℕ) : ℕ → ℕ → Mat × Perm → Mat × Perm
  | 0, _, s => s
  | fuel + 1, ii, s =>
    let im := imaxOf s.1 s.2 ii n
    let p1 := if im ≠ ii then swapFun s.2 ii im else s.2
    iiLoop n fuel (ii + 1)
      (jjLoop p1 ii (s.1 (p1 ii) ii) n (n - (ii + 1)) (ii + 1) s.1, p1)

/-- The solver's state: the square matrix storage (`rows = cols`, as asserted
by `assert(m == n)` in `factorize`), the permutation array and the
`factorized` flag. -/
structure matrixState where
  rows : ℕ
  data : Mat
  p : Perm
  factorized : Bool

/-- A freshly constructed solver: caller-supplied storage, permutation not
yet meaningful (`factorize` rebuilds it from scratch), flag `false`. -/
def mkMatrix (n : ℕ) (data : Mat) : matrixState :=
  ⟨n, data, fun k => k, false⟩

/-- `matrix::factorize`: reset `p` to the identity
(`p.resize(rows, 0); for (ii...) p[ii] = ii;`), run the elimination, set the
flag. -/
def factorize (s : matrixState) : matrixState :=
  let r := iiLoop s.rows (s.rows - 1) 0 (s.data, fun k => k)
  { s with data := r.1, p := r.2, factorized := true }

/-- The inner accumulation shared by both substitution loops of
`matrix::solve` (`f -= index(p[ii], kk) * b[p[kk]];` over a `kk` range). -/
def innerSub (M : Mat) (p : Perm) (ii : ℕ) (b : Vec) : ℕ → ℕ → ℚ → ℚ
  | 0, _, f => f
  | fuel + 1, kk, f => innerSub M p ii b fuel (kk + 1) (f - M (p ii) kk * b (p kk))

/-- The forward-substitution loop of `matrix::solve`
(`for (ii = 0; ii < get_rows(); ++ii)`): `f` starts at `b[p[ii]]`,
accumulates over `kk < ii`, and is stored back at `b[p[ii]]`. -/
def fwdLoop (M : Mat) (p : Perm) : ℕ → ℕ → Vec → Vec
  | 0, _, b => b
  | fuel + 1, ii, b =>
    fwdLoop M p fuel (ii + 1) (updV b (p ii) (innerSub M p ii b ii 0 (b (p ii))))

/-- The backward-substitution loop of `matrix::solve`
(`for (jj = 1; jj <= get_rows(); ++jj) { ii = get_rows() - jj; ... }`):
accumulate over `ii + 1 ≤ kk < cols`, divide by the diagonal
`index(p[ii], ii)`, store at `b[p[ii]]`. -/
def bwdLoop (M : Mat) (p : Perm) (rows cols : ℕ) : ℕ → ℕ → Vec → Vec
  | 0, _, b => b
  | fuel + 1, jj, b =>
    bwdLoop M p rows cols fuel (jj + 1)
      (updV b (p (rows - jj))
        (innerSub M p (rows - jj) b (cols - (rows - jj + 1)) (rows - jj + 1)
            (b (p (rows - jj)))
          / M (p (rows - jj)) (rows - jj)))

/-- `matrix::solve`: factorize lazily on the first call, then forward and
backward substitution in place on the right-hand side.  The returned pair is
the solver state after the call and the mutated right-hand-side storage. -/
def solve (s : matrixState) (rhs : Vec) : matrixState × Vec :=
  let s1 := if s.factorized then s else factorize s
  (s1, bwdLoop s1.data s1.p s1.rows s1.rows s1.rows 1
    (fwdLoop s1.data s1.p s1.rows 0 rhs))

/-- Row `r` of `A` dotted with `x` over the first `n` columns: the residual
check `(A x)_r`. -/
def rowDot (A : Mat) (r : ℕ) (x : Vec) (n : ℕ) : ℚ :=
  ∑ j ∈ Finset.range n, A r j * x j

/-- The general (possibly rectangular) matrix object of `matrix.hpp`, as used
by `matrix::transpose`. -/
structure matF where
  rows : ℕ
  cols : ℕ
  data : Mat

/-- Inner loop of `matrix::transpose`
(`for (i = 0; i < retval.get_rows(); ++i) retval(i, j) = const_index(j, i);`). -/
def transIFill (src : Mat) (j : ℕ) : ℕ → ℕ → Mat → Mat
  | 0, _, R => R
  | fuel + 1, i, R => transIFill src j fuel (i + 1) (updM R i j (src j i))

/-- Outer loop of `matrix::transpose`
(`for (j = 0; j < retval.get_cols(); ++j)`), `rowsR` being the inner trip
count `retval.get_rows()`. -/
def transJFill (src : Mat) (rowsR : ℕ) : ℕ → ℕ → Mat → Mat
  | 0, _, R => R
  | fuel + 1, j, R => transJFill src rowsR fuel (j + 1) (transIFill src j rowsR 0 R)

/-- `matrix::transpose`: build a `cols × rows` result (the container
zero-initializes fresh storage) and fill every in-range entry from the
source. -/
def transpose (A : matF) : matF :=
  { rows := A.cols, cols := A.rows,
    data := transJFill A.data A.cols A.rows 0 (fun _ _ => 0) }

/-- The permutation bookkeeping invariant carried through the elimination:
`p` is globally injective and is the identity from `n` on (the
`std::vector` only ever holds a permutation of `0..n-1`). -/
def PermOK (p : Perm) (n : ℕ) : Prop :=
  Function.Injective p ∧ ∀ k, n ≤ k → p k = k

/-- Concrete matrices and vectors for the executable test instances. -/
def Atest : Mat := fun i j =>
  if i = 0 then (if j = 0 then 1 else if j = 1 then 2 else 0)
  else if i = 1 then (if j = 0 then 3 else if j = 1 then 4 else 0)
  else 0

def btest : Vec := fun k => if k = 0 then 5 else if k = 1 then 6 else 0

/-- The singular test matrix `[[1,2],[2,4]]` of the specification. -/
def Asing : Mat := fun i j =>
  if i = 0 then (if j = 0 then 1 else if j = 1 then 2 else 0)
  else if i = 1 then (if j = 0 then 2 else if j = 1 then 4 else 0)
  else 0

/-- The well-conditioned test matrix `[[2,1],[1,3]]` of the specification. -/
def Agood : Mat := fun i j =>
  if i = 0 then (if j = 0 then 2 else if j = 1 then 1 else 0)
  else if i = 1 then (if j = 0 then 1 else if j = 1 then 3 else 0)
  else 0

def bgood : Vec := fun k => if k = 0 then 3 else if k = 1 then 5 else 0

/-! ### Basic update lemmas -/

theorem updM_same (M : Mat) (r c : ℕ) (v : ℚ) : updM M r c v r c = v := by
  simp [updM]

theorem updM_row_ne (M : Mat) (r c : ℕ) (v : ℚ) {i j : ℕ} (h : i ≠ r) :
    updM M r c v i j = M i j := by
  simp [updM, h]

theorem updM_col_ne (M : Mat) (r c : ℕ) (v : ℚ) {i j : ℕ} (h : j ≠ c) :
    updM M r c v i j = M i j := by
  simp [updM, h]

theorem updV_same (b : Vec) (i : ℕ) (v : ℚ) : updV b i v i = v := by
  simp [updV]

theorem updV_ne (b : Vec) (i : ℕ) (v : ℚ) {k : ℕ} (h : k ≠ i) :
    updV b i v k = b k := by
  simp [updV, h]

theorem swapFun_left (p : Perm) (a b : ℕ) : swapFun p a b a = p b := by
  simp [swapFun]

theorem swapFun_other (p : Perm) (a b : ℕ) {k : ℕ} (h1 : k ≠ a) (h2 : k ≠ b) :
    swapFun p a b k = p k := by
  simp [swapFun, h1, h2]

theorem swapFun_eq_comp (p : Perm) (a b : ℕ) :
    swapFun p a b = fun k => p (Equiv.swap a b k) := by
  funext k
  by_cases h1 : k = a
  · subst h1; simp [swapFun, Equiv.swap_apply_def]
  · by_cases h2 : k = b
    · subst h2; simp [swapFun, Equiv.swap_apply_def, h1]
    · simp [swapFun, h1, h2, Equiv.swap_apply_of_ne_of_ne h1 h2]

theorem swapFun_injective {p : Perm} (hp : Function.Injective p) (a b : ℕ) :
    Function.Injective (swapFun p a b) := by
  rw [swapFun_eq_comp]
  exact fun x y hxy => (Equiv.swap a b).injective (hp hxy)

theorem swapFun_fixes {p : Perm} {n a b : ℕ} (hfix : ∀ k, n ≤ k → p k = k)
    (ha : a < n) (hb : b < n) : ∀ k, n ≤ k → swapFun p a b k = k := by
  intro k hk
  have h1 : k ≠ a := fun h => absurd ha (by omega)
  have h2 : k ≠ b := fun h => absurd hb (by omega)
  rw [swapFun_other p a b h1 h2]
  exact hfix k hk

theorem PermOK.swap {p : Perm} {n a b : ℕ} (hp : PermOK p n) (ha : a < n) (hb : b < n) :
    PermOK (swapFun p a b) n :=
  ⟨swapFun_injective hp.1 a b, swapFun_fixes hp.2 ha hb⟩

theorem PermOK.lt {p : Perm} {n : ℕ} (hp : PermOK p n) {i : ℕ} (hi : i < n) : p i < n := by
  by_contra hge
  have h1 : p (p i) = p i := hp.2 (p i) (by omega)
  have h2 : p i = i := hp.1 h1
  omega

theorem PermOK.surj {p : Perm} {n : ℕ} (hp : PermOK p n) {v : ℕ} (hv : v < n) :
    ∃ i, i < n ∧ p i = v := by
  classical
  let g : Fin n → Fin n := fun i => ⟨p i.1, hp.lt i.2⟩
  have hg : Function.Injective g := by
    intro x y hxy
    have := hp.1 (show p x.1 = p y.1 from congrArg Fin.val hxy)
    exact Fin.ext this
  have hsurj : Function.Surjective g := Finite.surjective_of_injective hg
  obtain ⟨i, hi⟩ := hsurj ⟨v, hv⟩
  exact ⟨i.1, i.2, congrArg Fin.val hi⟩

/-! ### Pivot-scan specification (claim C3) -/

theorem pivotScan_spec (M : Mat) (p : Perm) (ii : ℕ) :
    ∀ (fuel kk : ℕ) (mp : ℚ) (im : ℕ), mp = M (p im) ii → im < kk →
      (((pivotScan M p ii fuel kk mp im).2 = im ∧ (pivotScan M p ii fuel kk mp im).1 = mp) ∨
        (kk ≤ (pivotScan M p ii fuel kk mp im).2 ∧
          (pivotScan M p ii fuel kk mp im).2 < kk + fuel ∧
          mp < (pivotScan M p ii fuel kk mp im).1)) ∧
      (pivotScan M p ii fuel kk mp im).1 = M (p (pivotScan M p ii fuel kk mp im).2) ii ∧
      (∀ k, kk ≤ k → k < kk + fuel → M (p k) ii ≤ (pivotScan M p ii fuel kk mp im).1) ∧
      (∀ k, kk ≤ k → k < kk + fuel → k < (pivotScan M p ii fuel kk mp im).2 →
        M (p k) ii < (pivotScan M p ii fuel kk mp im).1) := by
  intro fuel
  induction fuel with
  | zero =>
    intro kk mp im hmp him
    refine ⟨Or.inl ⟨rfl, rfl⟩, hmp.symm ▸ rfl, ?_, ?_⟩ <;> (intro k h1 h2; omega)
  | succ fuel ih =>
    intro kk mp im hmp him
    by_cases hlt : mp < M (p kk) ii
    · have hstep : pivotScan M p ii (fuel + 1) kk mp im =
          pivotScan M p ii fuel (kk + 1) (M (p kk) ii) kk := by
        simp [pivotScan, hlt]
      obtain ⟨hdisj, hval, hmax, hfirst⟩ :=
        ih (kk + 1) (M (p kk) ii) kk rfl (Nat.lt_succ_self kk)
      rw [hstep]
      refine ⟨?_, hval, ?_, ?_⟩
      · rcases hdisj with ⟨h2, h1⟩ | ⟨h1, h2, h3⟩
        · exact Or.inr ⟨by omega, by omega, lt_of_lt_of_eq hlt h1.symm⟩
        · exact Or.inr ⟨by omega, by omega, lt_trans hlt h3⟩
      · intro k h1 h2
        rcases Nat.eq_or_lt_of_le h1 with heq | hlt2
        · subst heq
          rcases hdisj with ⟨h2', h1'⟩ | ⟨h1', h2', h3'⟩
          · exact le_of_eq h1'.symm
          · exact le_of_lt h3'
        · exact hmax k hlt2 (by omega)
      · intro k h1 h2 h3
        rcases Nat.eq_or_lt_of_le h1 with heq | hlt2
        · subst heq
          rcases hdisj with ⟨h2', h1'⟩ | ⟨h1', h2', h3'⟩
          · omega
          · exact h3'
        · exact hfirst k hlt2 (by omega) h3
    · have hstep : pivotScan M p ii (fuel + 1) kk mp im =
          pivotScan M p ii fuel (kk + 1) mp im := by
        simp [pivotScan, hlt]
      obtain ⟨hdisj, hval, hmax, hfirst⟩ := ih (kk + 1) mp im hmp (by omega)
      rw [hstep]
      have hmple : mp ≤ (pivotScan M p ii fuel (kk + 1) mp im).1 := by
        rcases hdisj with ⟨h2', h1'⟩ | ⟨h1', h2', h3'⟩
        · exact le_of_eq h1'.symm
        · exact le_of_lt h3'
      refine ⟨?_, hval, ?_, ?_⟩
      · rcases hdisj with ⟨h2', h1'⟩ | ⟨h1', h2', h3'⟩
        · exact Or.inl ⟨h2', h1'⟩
        · exact Or.inr ⟨by omega, by omega, h3'⟩
      · intro k h1 h2
        rcases Nat.eq_or_lt_of_le h1 with heq | hlt2
        · subst heq
          exact le_trans (not_lt.mp hlt) hmple
        · exact hmax k hlt2 (by omega)
      · intro k h1 h2 h3
        rcases Nat.eq_or_lt_of_le h1 with heq | hlt2
        · subst heq
          rcases hdisj with ⟨h2', _⟩ | ⟨h1', h2', h3'⟩
          · omega
          · exact lt_of_le_of_lt (not_lt.mp hlt) h3'
        · exact hfirst k hlt2 (by omega) h3

theorem imaxOf_range (M : Mat) (p : Perm) {ii m : ℕ} (h : ii < m) :
    ii ≤ imaxOf M p ii m ∧ imaxOf M p ii m < m := by
  obtain ⟨hdisj, _, _, _⟩ :=
    pivotScan_spec M p ii (m - (ii + 1)) (ii + 1) (M (p ii) ii) ii rfl (Nat.lt_succ_self ii)
  unfold imaxOf
  rcases hdisj with ⟨h2, _⟩ | ⟨h1, h2, _⟩
  · omega
  · omega

theorem imaxOf_max (M : Mat) (p : Perm) {ii m : ℕ} (h : ii < m) :
    ∀ k, ii ≤ k → k < m → M (p k) ii ≤ M (p (imaxOf M p ii m)) ii := by
  obtain ⟨hdisj, hval, hmax, _⟩ :=
    pivotScan_spec M p ii (m - (ii + 1)) (ii + 1) (M (p ii) ii) ii rfl (Nat.lt_succ_self ii)
  intro k h1 h2
  rcases Nat.eq_or_lt_of_le h1 with heq | hlt2
  · subst heq
    rcases hdisj with ⟨h2', h1'⟩ | ⟨h1', h2', h3'⟩
    · unfold imaxOf; rw [← hval, h1']
    · unfold imaxOf; rw [← hval]; exact le_of_lt h3'
  · unfold imaxOf; rw [← hval]
    exact hmax k hlt2 (by omega)

theorem imaxOf_first (M : Mat) (p : Perm) {ii m : ℕ} (h : ii < m) :
    ∀ k, ii ≤ k → k < m → k < imaxOf M p ii m →
      M (p k) ii < M (p (imaxOf M p ii m)) ii := by
  obtain ⟨hdisj, hval, _, hfirst⟩ :=
    pivotScan_spec M p ii (m - (ii + 1)) (ii + 1) (M (p ii) ii) ii rfl (Nat.lt_succ_self ii)
  intro k h1 h2 h3
  unfold imaxOf at h3 ⊢
  rcases Nat.eq_or_lt_of_le h1 with heq | hlt2
  · subst heq
    rcases hdisj with ⟨h2', _⟩ | ⟨h1', h2', h3'⟩
    · omega
    · rw [← hval]; exact h3'
  · rw [← hval]
    exact hfirst k hlt2 (by omega) h3

/-! ### Frame and action lemmas for the elimination loops -/

theorem kkLoop_frame_row (pivRow tgtRow ii : ℕ) :
    ∀ (fuel kk : ℕ) (M : Mat) {r c : ℕ}, r ≠ tgtRow →
      kkLoop pivRow tgtRow ii fuel kk M r c = M r c := by
  intro fuel
  induction fuel with
  | zero => intro kk M r c _; rfl
  | succ fuel ih =>
    intro kk M r c hr
    rw [show kkLoop pivRow tgtRow ii (fuel + 1) kk M =
        kkLoop pivRow tgtRow ii fuel (kk + 1)
          (updM M tgtRow kk (M tgtRow kk + -(M pivRow kk) * M tgtRow ii)) from rfl,
      ih, updM_row_ne _ _ _ _ hr]
    exact hr

theorem kkLoop_frame_col_lt (pivRow tgtRow ii : ℕ) :
    ∀ (fuel kk : ℕ) (M : Mat) {r c : ℕ}, c < kk →
      kkLoop pivRow tgtRow ii fuel kk M r c = M r c := by
  intro fuel
  induction fuel with
  | zero => intro kk M r c _; rfl
  | succ fuel ih =>
    intro kk M r c hc
    rw [show kkLoop pivRow tgtRow ii (fuel + 1) kk M =
        kkLoop pivRow tgtRow ii fuel (kk + 1)
          (updM M tgtRow kk (M tgtRow kk + -(M pivRow kk) * M tgtRow ii)) from rfl,
      ih _ _ (by omega : c < kk + 1), updM_col_ne]
    omega

theorem kkLoop_frame_col_ge (pivRow tgtRow ii : ℕ) :
    ∀ (fuel kk : ℕ) (M : Mat) {r c : ℕ}, kk + fuel ≤ c →
      kkLoop pivRow tgtRow ii fuel kk M r c = M r c := by
  intro fuel
  induction fuel with
  | zero => intro kk M r c _; rfl
  | succ fuel ih =>
    intro kk M r c hc
    rw [show kkLoop pivRow tgtRow ii (fuel + 1) kk M =
        kkLoop pivRow tgtRow ii fuel (kk + 1)
          (updM M tgtRow kk (M tgtRow kk + -(M pivRow kk) * M tgtRow ii)) from rfl,
      ih _ _ (by omega : kk + 1 + fuel ≤ c), updM_col_ne]
    omega

theorem kkLoop_act (pivRow tgtRow ii : ℕ) (hrows : pivRow ≠ tgtRow) :
    ∀ (fuel kk : ℕ) (M : Mat) {c : ℕ}, ii < kk → kk ≤ c → c < kk + fuel →
      kkLoop pivRow tgtRow ii fuel kk M tgtRow c =
        M tgtRow c + -(M pivRow c) * M tgtRow ii := by
  intro fuel
  induction fuel with
  | zero => intro kk M c _ _ _; omega
  | succ fuel ih =>
    intro kk M c hik hkc hcf
    rw [show kkLoop pivRow tgtRow ii (fuel + 1) kk M =
        kkLoop pivRow tgtRow ii fuel (kk + 1)
          (updM M tgtRow kk (M tgtRow kk + -(M pivRow kk) * M tgtRow ii)) from rfl]
    rcases Nat.eq_or_lt_of_le hkc with heq | hlt
    · subst heq
      rw [kkLoop_frame_col_lt _ _ _ _ _ _ (by omega), updM_same]
    · rw [ih _ _ (by omega : ii < kk + 1) (by omega : kk + 1 ≤ c)
          (by omega : c < kk + 1 + fuel),
        updM_col_ne _ _ _ _ (by omega : c ≠ kk),
        updM_row_ne _ _ _ _ hrows,
        updM_col_ne _ _ _ _ (by omega : ii ≠ kk)]

theorem jjLoop_frame (p : Perm) (ii : ℕ) (pivot : ℚ) (n : ℕ) :
    ∀ (fuel jj : ℕ) (M : Mat) {r c : ℕ},
      (∀ j', jj ≤ j' → j' < jj + fuel → r ≠ p j') →
      jjLoop p ii pivot n fuel jj M r c = M r c := by
  intro fuel
  induction fuel with
  | zero => intro jj M r c _; rfl
  | succ fuel ih =>
    intro jj M r c hr
    rw [show jjLoop p ii pivot n (fuel + 1) jj M =
        jjLoop p ii pivot n fuel (jj + 1)
          (kkLoop (p ii) (p jj) ii (n - (ii + 1)) (ii + 1)
            (updM M (p jj) ii (M (p jj) ii / pivot))) from rfl,
      ih _ _ (fun j' h1 h2 => hr j' (by omega) (by omega)),
      kkLoop_frame_row _ _ _ _ _ _ (hr jj (le_refl jj) (by omega)),
      updM_row_ne _ _ _ _ (hr jj (le_refl jj) (by omega))]

theorem jjLoop_act (p : Perm) (ii : ℕ) (pivot : ℚ) (n : ℕ)
    (hp : Function.Injective p) :
    ∀ (fuel jj : ℕ) (M : Mat) (j0 : ℕ), ii < jj → jj ≤ j0 → j0 < jj + fuel →
      (jjLoop p ii pivot n fuel jj M (p j0) ii = M (p j0) ii / pivot) ∧
      (∀ c, ii < c → c < n →
        jjLoop p ii pivot n fuel jj M (p j0) c =
          M (p j0) c + -(M (p ii) c) * (M (p j0) ii / pivot)) ∧
      (∀ c, c < ii → jjLoop p ii pivot n fuel jj M (p j0) c = M (p j0) c) := by
  intro fuel
  induction fuel with
  | zero => intro jj M j0 _ _ _; omega
  | succ fuel ih =>
    intro jj M j0 hij hjj0 hj0f
    have hne_piv : p ii ≠ p jj := fun h => absurd (hp h) (by omega)
    have hstep : jjLoop p ii pivot n (fuel + 1) jj M =
        jjLoop p ii pivot n fuel (jj + 1)
          (kkLoop (p ii) (p jj) ii (n - (ii + 1)) (ii + 1)
            (updM M (p jj) ii (M (p jj) ii / pivot))) := rfl
    rcases Nat.eq_or_lt_of_le hjj0 with heq | hlt
    · subst heq
      have hrest : ∀ c, jjLoop p ii pivot n fuel (jj + 1)
            (kkLoop (p ii) (p jj) ii (n - (ii + 1)) (ii + 1)
              (updM M (p jj) ii (M (p jj) ii / pivot))) (p jj) c =
          kkLoop (p ii) (p jj) ii (n - (ii + 1)) (ii + 1)
            (updM M (p jj) ii (M (p jj) ii / pivot)) (p jj) c := by
        intro c
        exact jjLoop_frame p ii pivot n fuel (jj + 1) _
          (fun j' h1 h2 h => absurd (hp h) (by omega))
      refine ⟨?_, ?_, ?_⟩
      · rw [hstep, hrest, kkLoop_frame_col_lt _ _ _ _ _ _ (by omega), updM_same]
      · intro c hic hcn
        rw [hstep, hrest,
          kkLoop_act (p ii) (p jj) ii hne_piv (n - (ii + 1)) (ii + 1) _
            (by omega : ii < ii + 1) (by omega : ii + 1 ≤ c)
            (by omega : c < ii + 1 + (n - (ii + 1))),
          updM_col_ne _ _ _ _ (by omega : c ≠ ii),
          updM_row_ne _ _ _ _ hne_piv, updM_same]
      · intro c hci
        rw [hstep, hrest, kkLoop_frame_col_lt _ _ _ _ _ _ (by omega : c < ii + 1),
          updM_col_ne _ _ _ _ (by omega : c ≠ ii)]
    · have hne_jj : p jj ≠ p j0 := fun h => absurd (hp h) (by omega)
      obtain ⟨iha, ihb, ihc⟩ := ih (jj + 1)
        (kkLoop (p ii) (p jj) ii (n - (ii + 1)) (ii + 1)
          (updM M (p jj) ii (M (p jj) ii / pivot))) j0
        (by omega) (by omega) (by omega)
      have hrow : ∀ c, kkLoop (p ii) (p jj) ii (n - (ii + 1)) (ii + 1)
            (updM M (p jj) ii (M (p jj) ii / pivot)) (p j0) c = M (p j0) c := by
        intro c
        rw [kkLoop_frame_row _ _ _ _ _ _ (Ne.symm hne_jj),
          updM_row_ne _ _ _ _ (Ne.symm hne_jj)]
      have hpivrow : ∀ c, kkLoop (p ii) (p jj) ii (n - (ii + 1)) (ii + 1)
            (updM M (p jj) ii (M (p jj) ii / pivot)) (p ii) c = M (p ii) c := by
        intro c
        rw [kkLoop_frame_row _ _ _ _ _ _ hne_piv, updM_row_ne _ _ _ _ hne_piv]
      refine ⟨?_, ?_, ?_⟩
      · rw [hstep, iha, hrow]
      · intro c hic hcn
        rw [hstep, ihb c hic hcn, hrow, hrow, hpivrow]
      · intro c hci
        rw [hstep, ihc c hci, hrow]

/-! ### The elimination invariant

After `c` completed pivot columns, logical row `i` (physical row `p i`) has
been eliminated in columns `0 .. min i c - 1`; those entries now hold the `L`
multipliers and the rest of the row holds the current partially-eliminated
values.  `INV` records how the original matrix `A` is recovered from the
current storage `M` through the current permutation `p`. -/

def INV (A M : Mat) (p : Perm) (n c : ℕ) : Prop :=
  ∀ i j, i < n → j < n →
    (j < min i c → A (p i) j =
      (∑ k ∈ Finset.range j, M (p i) k * M (p k) j) + M (p i) j * M (p j) j) ∧
    (min i c ≤ j → A (p i) j =
      (∑ k ∈ Finset.range (min i c), M (p i) k * M (p k) j) + M (p i) j)

theorem INV_init (A : Mat) (p : Perm) (n : ℕ) : INV A A p n 0 := by
  intro i j hi hj
  constructor
  · intro h; omega
  · intro _; simp

theorem INV_swap (A M : Mat) (p : Perm) (n c a b : ℕ)
    (hinv : INV A M p n c) (hca : c ≤ a) (han : a < n) (hcb : c ≤ b) (hbn : b < n) :
    INV A M (swapFun p a b) n c := by
  intro i j hi hj
  have hfix : ∀ k, k < c → swapFun p a b k = p k := by
    intro k hk
    exact swapFun_other p a b (by omega) (by omega)
  -- the logical index whose physical row the swapped permutation yields at i
  set i2 := if i = a then b else if i = b then a else i with hi2def
  have hswi : swapFun p a b i = p i2 := by
    by_cases h1 : i = a
    · subst h1; simp [swapFun, hi2def]
    · by_cases h2 : i = b
      · subst h2; simp [swapFun, hi2def, h1]
      · simp [swapFun, hi2def, h1, h2]
  have hi2n : i2 < n := by
    rw [hi2def]
    split
    · exact hbn
    · split
      · exact han
      · exact hi
  have hminEq : min i2 c = min i c := by
    rw [hi2def]
    split
    · omega
    · split
      · omega
      · rfl
  obtain ⟨h1, h2⟩ := hinv i2 j hi2n hj
  constructor
  · intro hjc
    have hjcc : j < c := lt_of_lt_of_le hjc (Nat.min_le_right i c)
    have heq := h1 (by omega)
    have hs : (∑ k ∈ Finset.range j, M (swapFun p a b i) k * M (swapFun p a b k) j)
        = ∑ k ∈ Finset.range j, M (p i2) k * M (p k) j :=
      Finset.sum_congr rfl fun k hk => by
        rw [hswi, hfix k (lt_trans (Finset.mem_range.mp hk) hjcc)]
    rw [hs, hswi, hfix j hjcc]
    exact heq
  · intro hjc
    have heq := h2 (by omega)
    have hs : (∑ k ∈ Finset.range (min i c), M (swapFun p a b i) k * M (swapFun p a b k) j)
        = ∑ k ∈ Finset.range (min i2 c), M (p i2) k * M (p k) j := by
      rw [hminEq]
      exact Finset.sum_congr rfl fun k hk => by
        rw [hswi, hfix k (lt_of_lt_of_le (Finset.mem_range.mp hk) (Nat.min_le_right i c))]
    rw [hs, hswi]
    exact heq

theorem INV_step (A M : Mat) (p : Perm) (n c : ℕ)
    (hp : Function.Injective p) (hcn : c < n)
    (hpiv : M (p c) c ≠ 0) (hinv : INV A M p n c) :
    INV A (jjLoop p c (M (p c) c) n (n - (c + 1)) (c + 1) M) p n (c + 1) := by
  set M' := jjLoop p c (M (p c) c) n (n - (c + 1)) (c + 1) M with hM'def
  have hkeep : ∀ i, i ≤ c → ∀ col, M' (p i) col = M (p i) col := by
    intro i hic col
    exact jjLoop_frame p c (M (p c) c) n (n - (c + 1)) (c + 1) M
      (fun j' h1 h2 h => absurd (hp h) (by omega))
  have hact := fun (i : ℕ) (h1 : c < i) (h2 : i < n) =>
    jjLoop_act p c (M (p c) c) n hp (n - (c + 1)) (c + 1) M i
      (by omega) (by omega) (by omega)
  intro i j hi hj
  rcases le_or_lt i c with hic | hci
  · -- rows at or above the pivot row are untouched and keep the old relation
    have hmin1 : min i (c + 1) = min i c := by omega
    obtain ⟨h1, h2⟩ := hinv i j hi hj
    constructor
    · intro hjc
      rw [hmin1] at hjc
      have heq := h1 hjc
      have hjcc : j < i := lt_of_lt_of_le hjc (Nat.min_le_left i c)
      have hjcc2 : j < c := lt_of_lt_of_le hjc (Nat.min_le_right i c)
      have hs : (∑ k ∈ Finset.range j, M' (p i) k * M' (p k) j)
          = ∑ k ∈ Finset.range j, M (p i) k * M (p k) j :=
        Finset.sum_congr rfl fun k hk => by
          have hkj := Finset.mem_range.mp hk
          rw [hkeep i hic, hkeep k (by omega)]
      rw [hs, hkeep i hic, hkeep j (by omega)]
      exact heq
    · intro hjc
      rw [hmin1] at hjc
      have heq := h2 hjc
      have hs : (∑ k ∈ Finset.range (min i c), M' (p i) k * M' (p k) j)
          = ∑ k ∈ Finset.range (min i c), M (p i) k * M (p k) j :=
        Finset.sum_congr rfl fun k hk => by
          have hkc := Finset.mem_range.mp hk
          rw [hkeep i hic, hkeep k (by omega)]
      rw [hmin1, hs, hkeep i hic]
      exact heq
  · -- rows strictly below the pivot row were updated by the elimination
    obtain ⟨ha, hb, hc'⟩ := hact i hci hi
    rw [← hM'def] at ha hb hc'
    have hmin1 : min i (c + 1) = c + 1 := by omega
    have hmin0 : min i c = c := by omega
    obtain ⟨h1, h2⟩ := hinv i j hi hj
    constructor
    · intro hjc
      rw [hmin1] at hjc
      rcases Nat.lt_or_ge j c with hjlt | hjge
      · -- j < c : the stored multiplier relation is untouched
        have heq := h1 (by omega)
        have hs : (∑ k ∈ Finset.range j, M' (p i) k * M' (p k) j)
            = ∑ k ∈ Finset.range j, M (p i) k * M (p k) j :=
          Finset.sum_congr rfl fun k hk => by
            have hkj := Finset.mem_range.mp hk
            rw [hc' k (by omega), hkeep k (by omega)]
        rw [hs, hc' j (by omega), hkeep j (by omega)]
        exact heq
      · -- j = c : the new multiplier times the pivot recovers the old value
        have hjeq : j = c := by omega
        subst hjeq
        have heq := h2 (by omega)
        rw [hmin0] at heq
        have hs : (∑ k ∈ Finset.range j, M' (p i) k * M' (p k) j)
            = ∑ k ∈ Finset.range j, M (p i) k * M (p k) j :=
          Finset.sum_congr rfl fun k hk => by
            have hkj := Finset.mem_range.mp hk
            rw [hc' k (by omega), hkeep k (by omega)]
        rw [hs, ha, hkeep j (le_refl j), div_mul_cancel₀ _ hpiv]
        exact heq
    · intro hjc
      rw [hmin1] at hjc
      have heq := h2 (by omega)
      rw [hmin0] at heq
      have hs : (∑ k ∈ Finset.range c, M' (p i) k * M' (p k) j)
          = ∑ k ∈ Finset.range c, M (p i) k * M (p k) j :=
        Finset.sum_congr rfl fun k hk => by
          have hkc := Finset.mem_range.mp hk
          rw [hc' k hkc, hkeep k (by omega)]
      rw [hmin1, Finset.sum_range_succ, hs, ha, hkeep c (le_refl c),
        hb j (by omega) hj, heq]
      ring

theorem iiLoop_succ (n fuel ii : ℕ) (M : Mat) (p : Perm) :
    iiLoop n (fuel + 1) ii (M, p) =
      iiLoop n fuel (ii + 1)
        (jjLoop (if imaxOf M p ii n ≠ ii then swapFun p ii (imaxOf M p ii n) else p)
          ii
          (M ((if imaxOf M p ii n ≠ ii then swapFun p ii (imaxOf M p ii n) else p) ii) ii)
          n (n - (ii + 1)) (ii + 1) M,
        if imaxOf M p ii n ≠ ii then swapFun p ii (imaxOf M p ii n) else p) := rfl

theorem stepPerm_ok {p : Perm} {n ii : ℕ} (hp : PermOK p n) (hiin : ii < n) (M : Mat) :
    PermOK (if imaxOf M p ii n ≠ ii then swapFun p ii (imaxOf M p ii n) else p) n := by
  by_cases hne : imaxOf M p ii n ≠ ii
  · rw [if_pos hne]
    exact hp.swap hiin (imaxOf_range M p hiin).2
  · rw [if_neg hne]
    exact hp

theorem stepPerm_low {p : Perm} {n ii : ℕ} (hiin : ii < n) (M : Mat) {k : ℕ} (hk : k < ii) :
    (if imaxOf M p ii n ≠ ii then swapFun p ii (imaxOf M p ii n) else p) k = p k := by
  by_cases hne : imaxOf M p ii n ≠ ii
  · rw [if_pos hne]
    exact swapFun_other p ii (imaxOf M p ii n) (by omega)
      (by have := (imaxOf_range M p hiin).1; omega)
  · rw [if_neg hne]

theorem iiLoop_permOK (n : ℕ) :
    ∀ (fuel ii : ℕ) (M : Mat) (p : Perm), PermOK p n → ii + fuel ≤ n →
      PermOK (iiLoop n fuel ii (M, p)).2 n := by
  intro fuel
  induction fuel with
  | zero => intro ii M p hp _; exact hp
  | succ fuel ih =>
    intro ii M p hp hle
    rw [iiLoop_succ]
    exact ih (ii + 1) _ _ (stepPerm_ok hp (by omega) M) (by omega)

theorem iiLoop_frozen (n : ℕ) :
    ∀ (fuel ii : ℕ) (M : Mat) (p : Perm), PermOK p n → ii + fuel ≤ n →
      ∀ k, k < ii →
        (iiLoop n fuel ii (M, p)).2 k = p k ∧
        ∀ j, (iiLoop n fuel ii (M, p)).1 (p k) j = M (p k) j := by
  intro fuel
  induction fuel with
  | zero => intro ii M p _ _ k _; exact ⟨rfl, fun j => rfl⟩
  | succ fuel ih =>
    intro ii M p hp hle k hk
    rw [iiLoop_succ]
    set p1 := if imaxOf M p ii n ≠ ii then swapFun p ii (imaxOf M p ii n) else p with hp1
    have hp1ok : PermOK p1 n := stepPerm_ok hp (by omega) M
    have hlow : p1 k = p k := stepPerm_low (by omega) M hk
    set M2 := jjLoop p1 ii (M (p1 ii) ii) n (n - (ii + 1)) (ii + 1) M with hM2
    obtain ⟨hperm, hmat⟩ := ih (ii + 1) M2 p1 hp1ok (by omega) k (by omega)
    refine ⟨by rw [hperm, hlow], fun j => ?_⟩
    have hrow : ∀ col, M2 (p k) col = M (p k) col := by
      intro col
      rw [hM2]
      exact jjLoop_frame p1 ii (M (p1 ii) ii) n (n - (ii + 1)) (ii + 1) M
        (fun j' h1 h2 h => by
          rw [← hlow] at h
          exact absurd (hp1ok.1 h) (by omega))
    rw [← hlow, hmat, hlow, hrow]

theorem iiLoop_INV (A : Mat) (n : ℕ) :
    ∀ (fuel ii : ℕ) (M : Mat) (p : Perm), PermOK p n → ii + fuel + 1 = n →
      INV A M p n ii →
      (∀ r, r < n - 1 →
        (iiLoop n fuel ii (M, p)).1 ((iiLoop n fuel ii (M, p)).2 r) r ≠ 0) →
      INV A (iiLoop n fuel ii (M, p)).1 (iiLoop n fuel ii (M, p)).2 n (n - 1) := by
  intro fuel
  induction fuel with
  | zero =>
    intro ii M p hp hfn hinv _
    have : ii = n - 1 := by omega
    subst this
    exact hinv
  | succ fuel ih =>
    intro ii M p hp hfn hinv hdiag
    have hiin : ii < n := by omega
    rw [iiLoop_succ] at hdiag ⊢
    set p1 := if imaxOf M p ii n ≠ ii then swapFun p ii (imaxOf M p ii n) else p with hp1
    have hp1ok : PermOK p1 n := stepPerm_ok hp hiin M
    have hinv1 : INV A M p1 n ii := by
      rw [hp1]
      by_cases hne : imaxOf M p ii n ≠ ii
      · rw [if_pos hne]
        exact INV_swap A M p n ii ii (imaxOf M p ii n) hinv (le_refl ii) hiin
          (imaxOf_range M p hiin).1 (imaxOf_range M p hiin).2
      · rw [if_neg hne]
        exact hinv
    set M2 := jjLoop p1 ii (M (p1 ii) ii) n (n - (ii + 1)) (ii + 1) M with hM2
    -- the pivot of this step equals the final diagonal entry at position ii
    have hfrozen := iiLoop_frozen n fuel (ii + 1) M2 p1 hp1ok (by omega) ii
      (Nat.lt_succ_self ii)
    have hrowkeep : M2 (p1 ii) ii = M (p1 ii) ii := by
      rw [hM2]
      exact jjLoop_frame p1 ii (M (p1 ii) ii) n (n - (ii + 1)) (ii + 1) M
        (fun j' h1 h2 h => absurd (hp1ok.1 h) (by omega))
    have hpiv : M (p1 ii) ii ≠ 0 := by
      have hd := hdiag ii (by omega)
      rw [hfrozen.1, hfrozen.2 ii, hrowkeep] at hd
      exact hd
    have hinv2 : INV A M2 p1 n (ii + 1) := by
      rw [hM2]
      exact INV_step A M p1 n ii hp1ok.1 hiin hpiv hinv1
    have := ih (ii + 1) M2 p1 hp1ok (by omega) hinv2 hdiag
    exact this

theorem factorize_eq (s : matrixState) :
    factorize s = ⟨s.rows, (iiLoop s.rows (s.rows - 1) 0 (s.data, fun k => k)).1,
      (iiLoop s.rows (s.rows - 1) 0 (s.data, fun k => k)).2, true⟩ := rfl

theorem idPerm_ok (n : ℕ) : PermOK (fun k => k) n :=
  ⟨fun _ _ h => h, fun _ _ => rfl⟩

theorem factorize_permOK (s : matrixState) : PermOK (factorize s).p s.rows :=
  iiLoop_permOK s.rows (s.rows - 1) 0 s.data (fun k => k) (idPerm_ok s.rows) (by omega)

theorem factorize_INV (s : matrixState)
    (hdiag : ∀ r, r < s.rows - 1 → (factorize s).data ((factorize s).p r) r ≠ 0) :
    INV s.data (factorize s).data (factorize s).p s.rows (s.rows - 1) := by
  rcases Nat.eq_zero_or_pos s.rows with h0 | hpos
  · intro i j hi hj
    omega
  · exact iiLoop_INV s.data s.rows (s.rows - 1) 0 s.data (fun k => k)
      (idPerm_ok s.rows) (by omega) (INV_init s.data (fun k => k) s.rows) hdiag

/-! ### Substitution loop lemmas -/

theorem innerSub_spec (M : Mat) (p : Perm) (ii : ℕ) (b : Vec) :
    ∀ (fuel kk : ℕ) (f : ℚ),
      innerSub M p ii b fuel kk f =
        f - ∑ k ∈ Finset.Ico kk (kk + fuel), M (p ii) k * b (p k) := by
  intro fuel
  induction fuel with
  | zero => intro kk f; simp [innerSub]
  | succ fuel ih =>
    intro kk f
    rw [show innerSub M p ii b (fuel + 1) kk f =
        innerSub M p ii b fuel (kk + 1) (f - M (p ii) kk * b (p kk)) from rfl,
      ih, Finset.sum_eq_sum_Ico_succ_bot (by omega : kk < kk + (fuel + 1)),
      show kk + (fuel + 1) = kk + 1 + fuel by omega]
    ring

theorem fwdLoop_frame (M : Mat) (p : Perm) :
    ∀ (fuel ii : ℕ) (b : Vec) (x : ℕ),
      (∀ i, ii ≤ i → i < ii + fuel → x ≠ p i) →
      fwdLoop M p fuel ii b x = b x := by
  intro fuel
  induction fuel with
  | zero => intro ii b x _; rfl
  | succ fuel ih =>
    intro ii b x hx
    rw [show fwdLoop M p (fuel + 1) ii b =
        fwdLoop M p fuel (ii + 1) (updV b (p ii) (innerSub M p ii b ii 0 (b (p ii)))) from rfl,
      ih (ii + 1) _ x (fun i h1 h2 => hx i (by omega) (by omega)),
      updV_ne _ _ _ (hx ii (le_refl ii) (by omega))]

theorem fwdLoop_act (M : Mat) (p : Perm) (hp : Function.Injective p) :
    ∀ (fuel ii : ℕ) (b : Vec) (i : ℕ), ii ≤ i → i < ii + fuel →
      fwdLoop M p fuel ii b (p i) =
        b (p i) - ∑ kk ∈ Finset.range i, M (p i) kk *
          (if kk < ii then b (p kk) else fwdLoop M p fuel ii b (p kk)) := by
  intro fuel
  induction fuel with
  | zero => intro ii b i _ _; omega
  | succ fuel ih =>
    intro ii b i hii hif
    have hstep : fwdLoop M p (fuel + 1) ii b =
        fwdLoop M p fuel (ii + 1)
          (updV b (p ii) (innerSub M p ii b ii 0 (b (p ii)))) := rfl
    have hval : innerSub M p ii b ii 0 (b (p ii)) =
        b (p ii) - ∑ kk ∈ Finset.range ii, M (p ii) kk * b (p kk) := by
      rw [innerSub_spec, Finset.range_eq_Ico]
      simp
    have hvii : fwdLoop M p (fuel + 1) ii b (p ii) =
        b (p ii) - ∑ kk ∈ Finset.range ii, M (p ii) kk * b (p kk) := by
      rw [hstep, fwdLoop_frame M p fuel (ii + 1) _ (p ii)
          (fun i2 h1 h2 h => absurd (hp h) (by omega)),
        updV_same, hval]
    rcases Nat.eq_or_lt_of_le hii with heq | hlt
    · subst heq
      rw [hvii]
      congr 1
      exact Finset.sum_congr rfl fun kk hk => by
        rw [if_pos (Finset.mem_range.mp hk)]
    · have hne : p i ≠ p ii := fun h => absurd (hp h) (by omega)
      rw [hstep, ih (ii + 1) _ i (by omega) (by omega), updV_ne _ _ _ hne]
      congr 1
      refine Finset.sum_congr rfl fun kk hk => ?_
      have hkk := Finset.mem_range.mp hk
      rcases Nat.lt_trichotomy kk ii with h1 | h2 | h3
      · rw [if_pos (by omega : kk < ii + 1), if_pos h1,
          updV_ne _ _ _ (fun h => absurd (hp h) (by omega))]
      · subst h2
        rw [if_pos (by omega : kk < kk + 1), if_neg (by omega : ¬ kk < kk), updV_same,
          fwdLoop_frame M p fuel (kk + 1) _ (p kk)
            (fun i2 h1' h2' h => absurd (hp h) (by omega)),
          updV_same]
      · rw [if_neg (by omega : ¬ kk < ii + 1), if_neg (by omega : ¬ kk < ii)]

theorem fwd_spec (M : Mat) (p : Perm) (hp : Function.Injective p) (n : ℕ) (b : Vec) :
    ∀ i, i < n →
      fwdLoop M p n 0 b (p i) =
        b (p i) - ∑ kk ∈ Finset.range i, M (p i) kk * fwdLoop M p n 0 b (p kk) := by
  intro i hi
  rw [fwdLoop_act M p hp n 0 b i (Nat.zero_le i) (by omega)]
  simp

theorem bwdLoop_frame (M : Mat) (p : Perm) (rows cols : ℕ) :
    ∀ (fuel jj : ℕ) (b : Vec) (x : ℕ),
      (∀ j', jj ≤ j' → j' < jj + fuel → x ≠ p (rows - j')) →
      bwdLoop M p rows cols fuel jj b x = b x := by
  intro fuel
  induction fuel with
  | zero => intro jj b x _; rfl
  | succ fuel ih =>
    intro jj b x hx
    rw [show bwdLoop M p rows cols (fuel + 1) jj b =
        bwdLoop M p rows cols fuel (jj + 1)
          (updV b (p (rows - jj))
            (innerSub M p (rows - jj) b (cols - (rows - jj + 1)) (rows - jj + 1)
                (b (p (rows - jj)))
              / M (p (rows - jj)) (rows - jj))) from rfl,
      ih (jj + 1) _ x (fun j' h1 h2 => hx j' (by omega) (by omega)),
      updV_ne _ _ _ (hx jj (le_refl jj) (by omega))]

theorem bwdLoop_act (M : Mat) (p : Perm) (rows : ℕ) (hp : Function.Injective p) :
    ∀ (fuel jj : ℕ) (b : Vec) (j0 : ℕ),
      1 ≤ jj → jj + fuel ≤ rows + 1 → jj ≤ j0 → j0 < jj + fuel →
      bwdLoop M p rows rows fuel jj b (p (rows - j0)) =
        (b (p (rows - j0)) - ∑ kk ∈ Finset.Ico (rows - j0 + 1) rows,
            M (p (rows - j0)) kk *
              (if rows - jj < kk then b (p kk)
                else bwdLoop M p rows rows fuel jj b (p kk)))
          / M (p (rows - j0)) (rows - j0) := by
  intro fuel
  induction fuel with
  | zero => intro jj b j0 _ _ _ _; omega
  | succ fuel ih =>
    intro jj b j0 h1jj hjf hjj0 hj0f
    have hiile : rows - jj + 1 ≤ rows := by omega
    have hstep : bwdLoop M p rows rows (fuel + 1) jj b =
        bwdLoop M p rows rows fuel (jj + 1)
          (updV b (p (rows - jj))
            (innerSub M p (rows - jj) b (rows - (rows - jj + 1)) (rows - jj + 1)
                (b (p (rows - jj)))
              / M (p (rows - jj)) (rows - jj))) := rfl
    have hval : innerSub M p (rows - jj) b (rows - (rows - jj + 1)) (rows - jj + 1)
        (b (p (rows - jj))) =
        b (p (rows - jj)) - ∑ kk ∈ Finset.Ico (rows - jj + 1) rows,
          M (p (rows - jj)) kk * b (p kk) := by
      rw [innerSub_spec, show rows - jj + 1 + (rows - (rows - jj + 1)) = rows by omega]
    have hdist : ∀ j', jj + 1 ≤ j' → j' < jj + 1 + fuel →
        p (rows - jj) ≠ p (rows - j') := by
      intro j' ha hb h
      have := hp h
      omega
    have hvjj : bwdLoop M p rows rows (fuel + 1) jj b (p (rows - jj)) =
        (b (p (rows - jj)) - ∑ kk ∈ Finset.Ico (rows - jj + 1) rows,
            M (p (rows - jj)) kk * b (p kk)) / M (p (rows - jj)) (rows - jj) := by
      rw [hstep, bwdLoop_frame M p rows rows fuel (jj + 1) _ _ hdist, updV_same, hval]
    rcases Nat.eq_or_lt_of_le hjj0 with heq | hlt
    · subst heq
      rw [hvjj]
      congr 2
      refine Finset.sum_congr rfl fun kk hk => ?_
      have hkk := Finset.mem_Ico.mp hk
      rw [if_pos (by omega : rows - jj < kk)]
    · have hne : p (rows - j0) ≠ p (rows - jj) := by
        intro h
        have := hp h
        omega
      rw [hstep, ih (jj + 1) _ j0 (by omega) (by omega) (by omega) (by omega),
        updV_ne _ _ _ hne]
      congr 2
      refine Finset.sum_congr rfl fun kk hk => ?_
      have hkk := Finset.mem_Ico.mp hk
      rcases Nat.lt_trichotomy (rows - jj) kk with hgt | heq2 | hlt2
      · rw [if_pos (by omega : rows - (jj + 1) < kk), if_pos hgt,
          updV_ne _ _ _ (fun h => by have := hp h; omega)]
      · rw [if_pos (by omega : rows - (jj + 1) < kk), if_neg (by omega : ¬ rows - jj < kk),
          ← heq2, updV_same,
          bwdLoop_frame M p rows rows fuel (jj + 1) _ _
            (fun j' ha hb h => by have := hp h; omega),
          updV_same]
      · rw [if_neg (by omega : ¬ rows - (jj + 1) < kk), if_neg (by omega : ¬ rows - jj < kk)]

theorem bwd_spec (M : Mat) (p : Perm) (rows : ℕ) (hp : Function.Injective p) (b : Vec) :
    ∀ i, i < rows →
      bwdLoop M p rows rows rows 1 b (p i) =
        (b (p i) - ∑ kk ∈ Finset.Ico (i + 1) rows,
            M (p i) kk * bwdLoop M p rows rows rows 1 b (p kk)) / M (p i) i := by
  intro i hi
  have h := bwdLoop_act M p rows hp rows 1 b (rows - i) (le_refl 1) (by omega)
    (by omega) (by omega)
  rw [show rows - (rows - i) = i by omega] at h
  rw [h]
  congr 2
  refine Finset.sum_congr rfl fun kk hk => ?_
  have hkk := Finset.mem_Ico.mp hk
  rw [if_neg (by omega : ¬ rows - 1 < kk)]

/-! ### The combined storage read as L and U factors -/

/-- Entry `(i, k)` of the unit lower-triangular factor held in the
strictly-lower part of the factored storage `F` (through permutation `q`). -/
def Lent (F : Mat) (q : Perm) (i k : ℕ) : ℚ :=
  if k < i then F (q i) k else if k = i then 1 else 0

/-- Entry `(k, j)` of the upper-triangular factor held in the upper part
(including the diagonal) of the factored storage `F`. -/
def Uent (F : Mat) (q : Perm) (k j : ℕ) : ℚ :=
  if k ≤ j then F (q k) j else 0

theorem INV_to_LU (A F : Mat) (q : Perm) (n : ℕ)
    (hinv : INV A F q n (n - 1)) :
    ∀ i j, i < n → j < n →
      A (q i) j = ∑ k ∈ Finset.range n, Lent F q i k * Uent F q k j := by
  intro i j hi hj
  obtain ⟨h1, h2⟩ := hinv i j hi hj
  have hmin : min i (n - 1) = i := by omega
  rcases Nat.lt_or_ge j i with hji | hij
  · -- strictly-lower entry : multiplier relation
    have heq := h1 (by omega)
    have hsplit : Finset.range n = Finset.range (j + 1) ∪ Finset.Ico (j + 1) n := by
      rw [Finset.range_eq_Ico]
      exact (Finset.Ico_union_Ico_eq_Ico (by omega) (by omega)).symm
    rw [hsplit, Finset.sum_union (by
      simp [Finset.disjoint_left]
      intro a ha1 ha2
      omega)]
    have hzero : (∑ k ∈ Finset.Ico (j + 1) n, Lent F q i k * Uent F q k j) = 0 := by
      refine Finset.sum_eq_zero fun k hk => ?_
      have hkk := Finset.mem_Ico.mp hk
      rw [Uent, if_neg (by omega)]
      ring
    rw [hzero, add_zero, Finset.sum_range_succ]
    have hterms : (∑ k ∈ Finset.range j, Lent F q i k * Uent F q k j)
        = ∑ k ∈ Finset.range j, F (q i) k * F (q k) j := by
      refine Finset.sum_congr rfl fun k hk => ?_
      have hkk := Finset.mem_range.mp hk
      rw [Lent, if_pos (by omega), Uent, if_pos (by omega)]
    rw [hterms, Lent, if_pos (by omega), Uent, if_pos (le_refl j)]
    exact heq
  · -- upper entry (diagonal included)
    have heq := h2 (by omega)
    rw [hmin] at heq
    have hsplit : Finset.range n = Finset.range (i + 1) ∪ Finset.Ico (i + 1) n := by
      rw [Finset.range_eq_Ico]
      exact (Finset.Ico_union_Ico_eq_Ico (by omega) (by omega)).symm
    rw [hsplit, Finset.sum_union (by
      simp [Finset.disjoint_left]
      intro a ha1 ha2
      omega)]
    have hzero : (∑ k ∈ Finset.Ico (i + 1) n, Lent F q i k * Uent F q k j) = 0 := by
      refine Finset.sum_eq_zero fun k hk => ?_
      have hkk := Finset.mem_Ico.mp hk
      rw [Lent, if_neg (by omega), if_neg (by omega)]
      ring
    rw [hzero, add_zero, Finset.sum_range_succ]
    have hterms : (∑ k ∈ Finset.range i, Lent F q i k * Uent F q k j)
        = ∑ k ∈ Finset.range i, F (q i) k * F (q k) j := by
      refine Finset.sum_congr rfl fun k hk => ?_
      have hkk := Finset.mem_range.mp hk
      rw [Lent, if_pos (by omega), Uent, if_pos (by omega)]
    rw [hterms, Lent, if_neg (by omega), if_pos rfl, Uent, if_pos hij]
    rw [one_mul]
    exact heq

/-- C1 (amended).  For every square matrix `A` of dimension `n` and every
right-hand side `b`, when the factorization produced by the first `solve`
call has all its diagonal entries `U[p[i]][i]` nonzero (equivalently: every
pivot and the last diagonal entry are nonzero — the code never checks this),
the mutated right-hand-side storage holds the exact solution of `A x = b`
at the permuted positions: the vector `x` defined by `x i = b'[p[i]]`
satisfies `A x = b` (exact arithmetic over `ℚ`).  The original claim,
which asserts that the storage itself equals a solution of `A x = b`, fails
whenever a row interchange occurs; see the counterexample. -/
theorem C1_solve_solves_system_at_permuted_positions (n : ℕ) (A : Mat) (b : Vec)
    (hdiag : ∀ i, i < n →
      (factorize (mkMatrix n A)).data ((factorize (mkMatrix n A)).p i) i ≠ 0) :
    ∀ r, r < n →
      rowDot A r
        (fun i => (solve (mkMatrix n A) b).2 ((solve (mkMatrix n A) b).1.p i)) n
      = b r := by
  have hq : PermOK (factorize (mkMatrix n A)).p n := factorize_permOK (mkMatrix n A)
  set F := (factorize (mkMatrix n A)).data with hF
  set q := (factorize (mkMatrix n A)).p with hqdef
  have hrows : (mkMatrix n A).rows = n := rfl
  have hinv : INV A F q n (n - 1) :=
    factorize_INV (mkMatrix n A) (fun r hr => hdiag r (by rw [hrows] at hr; omega))
  have hLU := INV_to_LU A F q n hinv
  set yv := fwdLoop F q n 0 b with hyv
  set xv := bwdLoop F q n n n 1 yv with hxv
  have hxcomp : ∀ i2, (solve (mkMatrix n A) b).2 ((solve (mkMatrix n A) b).1.p i2)
      = xv (q i2) := fun i2 => rfl
  have hy : ∀ i, i < n →
      yv (q i) = b (q i) - ∑ kk ∈ Finset.range i, F (q i) kk * yv (q kk) :=
    fwd_spec F q hq.1 n b
  have hx : ∀ i, i < n →
      xv (q i) = (yv (q i) - ∑ kk ∈ Finset.Ico (i + 1) n, F (q i) kk * xv (q kk))
        / F (q i) i :=
    bwd_spec F q n hq.1 yv
  have hUx : ∀ k, k < n →
      (∑ j ∈ Finset.range n, Uent F q k j * xv (q j)) = yv (q k) := by
    intro k hk
    have hxk := hx k hk
    have hdk := hdiag k hk
    have hsplit : Finset.range n = Finset.range k ∪ Finset.Ico k n := by
      rw [Finset.range_eq_Ico]
      exact (Finset.Ico_union_Ico_eq_Ico (by omega) (by omega)).symm
    rw [hsplit, Finset.sum_union (by
      simp [Finset.disjoint_left]
      intro a ha1 ha2
      omega)]
    have hzero : (∑ j ∈ Finset.range k, Uent F q k j * xv (q j)) = 0 := by
      refine Finset.sum_eq_zero fun j hj => ?_
      have hjj := Finset.mem_range.mp hj
      rw [Uent, if_neg (by omega)]
      ring
    rw [hzero, zero_add,
      Finset.sum_eq_sum_Ico_succ_bot (by omega : k < n)]
    have hterms : (∑ j ∈ Finset.Ico (k + 1) n, Uent F q k j * xv (q j))
        = ∑ j ∈ Finset.Ico (k + 1) n, F (q k) j * xv (q j) := by
      refine Finset.sum_congr rfl fun j hj => ?_
      have hjj := Finset.mem_Ico.mp hj
      rw [Uent, if_pos (by omega)]
    rw [hterms, Uent, if_pos (le_refl k)]
    have hdivmul : F (q k) k * xv (q k)
        = yv (q k) - ∑ kk ∈ Finset.Ico (k + 1) n, F (q k) kk * xv (q kk) := by
      rw [hxk, mul_comm, div_mul_cancel₀ _ hdk]
    rw [hdivmul]
    ring
  have hrow : ∀ i, i < n →
      (∑ j ∈ Finset.range n, A (q i) j * xv (q j)) = b (q i) := by
    intro i hi
    have e1 : (∑ j ∈ Finset.range n, A (q i) j * xv (q j))
        = ∑ j ∈ Finset.range n, ∑ k ∈ Finset.range n,
            Lent F q i k * (Uent F q k j * xv (q j)) := by
      refine Finset.sum_congr rfl fun j hj => ?_
      rw [hLU i j hi (Finset.mem_range.mp hj), Finset.sum_mul]
      exact Finset.sum_congr rfl fun k hk => by ring
    rw [e1, Finset.sum_comm]
    have e2 : ∀ k ∈ Finset.range n,
        (∑ j ∈ Finset.range n, Lent F q i k * (Uent F q k j * xv (q j)))
          = Lent F q i k * yv (q k) := by
      intro k hk
      rw [← Finset.mul_sum, hUx k (Finset.mem_range.mp hk)]
    rw [Finset.sum_congr rfl e2]
    have hsplit : Finset.range n = Finset.range (i + 1) ∪ Finset.Ico (i + 1) n := by
      rw [Finset.range_eq_Ico]
      exact (Finset.Ico_union_Ico_eq_Ico (by omega) (by omega)).symm
    rw [hsplit, Finset.sum_union (by
      simp [Finset.disjoint_left]
      intro a ha1 ha2
      omega)]
    have hzero : (∑ k ∈ Finset.Ico (i + 1) n, Lent F q i k * yv (q k)) = 0 := by
      refine Finset.sum_eq_zero fun k hk => ?_
      have hkk := Finset.mem_Ico.mp hk
      rw [Lent, if_neg (by omega), if_neg (by omega)]
      ring
    have hterms : (∑ k ∈ Finset.range i, Lent F q i k * yv (q k))
        = ∑ k ∈ Finset.range i, F (q i) k * yv (q k) := by
      refine Finset.sum_congr rfl fun k hk => ?_
      have hkk := Finset.mem_range.mp hk
      rw [Lent, if_pos (by omega)]
    rw [hzero, add_zero, Finset.sum_range_succ, hterms, Lent, if_neg (by omega),
      if_pos rfl, one_mul, hy i hi]
    ring
  intro r hr
  obtain ⟨i, hi, hqi⟩ := hq.surj hr
  have hcomp : rowDot A r
      (fun i2 => (solve (mkMatrix n A) b).2 ((solve (mkMatrix n A) b).1.p i2)) n
      = ∑ j ∈ Finset.range n, A (q i) j * xv (q j) := by
    rw [rowDot, ← hqi]
    exact Finset.sum_congr rfl fun j hj => by rw [hxcomp j]
  rw [hcomp, hrow i hi, hqi]

/-- C1 counterexample.  `Atest = [[1,2],[3,4]]` is invertible (nonzero 2×2
determinant), yet after `solve` with `btest = [5,6]` the mutated storage is
`[9/2, -4]` — the solution permuted by the row interchange, not the solution
itself — and its residual in row 0 differs from `btest 0`:
`1 * 9/2 + 2 * (-4) = -7/2 ≠ 5`.  So the claim that the storage itself solves
`A x = b` is false. -/
theorem C1_cex_output_is_permuted :
    Atest 0 0 * Atest 1 1 - Atest 0 1 * Atest 1 0 ≠ 0 ∧
    rowDot Atest 0 (solve (mkMatrix 2 Atest) btest).2 2 ≠ btest 0 := by
  constructor
  · norm_num [Atest]
  · norm_num [rowDot, Finset.sum_range_succ, solve, mkMatrix, factorize, iiLoop,
      imaxOf, pivotScan, swapFun, jjLoop, kkLoop, updM, fwdLoop, bwdLoop, innerSub,
      updV, Atest, btest]

/-- C1 witness: the amended theorem applied to the concrete invertible system
`Atest x = btest` (all factored diagonal entries nonzero). -/
theorem C1_witness_concrete :
    (∀ i, i < 2 →
      (factorize (mkMatrix 2 Atest)).data ((factorize (mkMatrix 2 Atest)).p i) i ≠ 0) ∧
    (∀ r, r < 2 →
      rowDot Atest r
        (fun i => (solve (mkMatrix 2 Atest) btest).2
          ((solve (mkMatrix 2 Atest) btest).1.p i)) 2
      = btest r) := by
  have hd : ∀ i, i < 2 →
      (factorize (mkMatrix 2 Atest)).data ((factorize (mkMatrix 2 Atest)).p i) i ≠ 0 := by
    intro i hi
    interval_cases i <;>
      norm_num [mkMatrix, factorize, iiLoop, imaxOf, pivotScan, swapFun, jjLoop,
        kkLoop, updM, Atest]
  exact ⟨hd, C1_solve_solves_system_at_permuted_positions 2 Atest btest hd⟩

/-- C2: on the singular matrix `[[1,2],[2,4]]` the code signals nothing: the
factorization runs to completion (the flag is set) while leaving a zero on
the `U` diagonal, which backward substitution then divides by.  In IEEE
arithmetic this silently produces `inf`/`NaN`; no SingularMatrix failure
exists anywhere in the code. -/
theorem C2_singular_input_not_reported :
    (factorize (mkMatrix 2 Asing)).factorized = true ∧
    (factorize (mkMatrix 2 Asing)).data ((factorize (mkMatrix 2 Asing)).p 1) 1 = 0 := by
  constructor
  · rfl
  · norm_num [mkMatrix, factorize, iiLoop, imaxOf, pivotScan, swapFun, jjLoop,
      kkLoop, updM, Asing]

/-- Right-hand sides for the C9 evidence: both describe a stored vector of
length 1 (only index 0 is meaningful); they differ only at the out-of-range
index 1. -/
def bshort : Vec := fun k => if k = 0 then 1 else 0

def bshort2 : Vec := fun k => if k = 0 then 1 else 5

/-- C9: `solve` performs no dimension check at all.  For a 2×2 matrix its
output at index 0 depends on the right-hand-side entry at index 1: two
right-hand sides that agree on every index below 1 produce different
results, so a caller passing a length-1 vector has its storage read (and
written) out of range instead of receiving a DimensionMismatch failure. -/
theorem C9_no_dimension_check :
    (∀ k, k < 1 → bshort k = bshort2 k) ∧
    (solve (mkMatrix 2 Agood) bshort).2 0 ≠ (solve (mkMatrix 2 Agood) bshort2).2 0 := by
  constructor
  · intro k hk
    interval_cases k
    rfl
  · norm_num [solve, mkMatrix, factorize, iiLoop, imaxOf, pivotScan, swapFun, jjLoop,
      kkLoop, updM, fwdLoop, bwdLoop, innerSub, updV, Agood, bshort, bshort2]

/-- C3: the pivot search used by `factorize` for column `ii` of an `m`-row
matrix scans the candidates `permutation[ii..m-1]` and returns an index in
that range whose entry in column `ii` is greatest in the raw (signed) order:
every candidate's value is `≤` the selected one, and every candidate that
appears earlier in scan order than the selected row has a strictly smaller
value (a later candidate replaces the current choice only on strict
increase, so ties keep the first row encountered). -/
theorem C3_pivot_selection (M : Mat) (p : Perm) (ii m : ℕ) (h : ii < m) :
    ii ≤ imaxOf M p ii m ∧ imaxOf M p ii m < m ∧
    (∀ k, ii ≤ k → k < m → M (p k) ii ≤ M (p (imaxOf M p ii m)) ii) ∧
    (∀ k, ii ≤ k → k < m → k < imaxOf M p ii m →
      M (p k) ii < M (p (imaxOf M p ii m)) ii) :=
  ⟨(imaxOf_range M p h).1, (imaxOf_range M p h).2, imaxOf_max M p h, imaxOf_first M p h⟩

/-- C3 witness: the concrete pivot search on `Atest` at column 0 (it selects
row 1, whose raw value 3 beats 1). -/
theorem C3_witness_concrete :
    (0 : ℕ) < 2 ∧
    ((0 : ℕ) ≤ imaxOf Atest (fun k => k) 0 2 ∧ imaxOf Atest (fun k => k) 0 2 < 2 ∧
    (∀ k, 0 ≤ k → k < 2 →
      Atest k 0 ≤ Atest (imaxOf Atest (fun k => k) 0 2) 0) ∧
    (∀ k, 0 ≤ k → k < 2 → k < imaxOf Atest (fun k => k) 0 2 →
      Atest k 0 < Atest (imaxOf Atest (fun k => k) 0 2) 0)) :=
  ⟨by norm_num, C3_pivot_selection Atest (fun k => k) 0 2 (by norm_num)⟩

/-- C4: one elimination step of `factorize`.  With `pivot` read as
`index(p[ii], ii)` before the loop over the rows below, the loop stores the
multiplier `A[p[jj]][ii] / A[p[ii]][ii]` in place of entry `(p[jj], ii)` and
updates every remaining entry `kk > ii` of that row to
`A[p[jj]][kk] - A[p[ii]][kk] * multiplier`, where all values on the right
are those held when the step began. -/
theorem C4_elimination_step (M : Mat) (p : Perm) (n ii jj : ℕ)
    (hp : Function.Injective p) (h1 : ii < jj) (h2 : jj < n) :
    jjLoop p ii (M (p ii) ii) n (n - (ii + 1)) (ii + 1) M (p jj) ii
        = M (p jj) ii / M (p ii) ii ∧
    ∀ kk, ii < kk → kk < n →
      jjLoop p ii (M (p ii) ii) n (n - (ii + 1)) (ii + 1) M (p jj) kk
        = M (p jj) kk - M (p ii) kk * (M (p jj) ii / M (p ii) ii) := by
  obtain ⟨ha, hb, _⟩ := jjLoop_act p ii (M (p ii) ii) n hp (n - (ii + 1)) (ii + 1) M jj
    (by omega) (by omega) (by omega)
  exact ⟨ha, fun kk hk1 hk2 => by rw [hb kk hk1 hk2]; ring⟩

/-- C4 witness: the elimination step on the concrete matrix `Atest` with the
identity permutation, pivot column 0, row 1. -/
theorem C4_witness_concrete :
    Function.Injective (fun k : ℕ => k) ∧ (0 : ℕ) < 1 ∧ (1 : ℕ) < 2 ∧
    (jjLoop (fun k => k) 0 (Atest 0 0) 2 (2 - (0 + 1)) (0 + 1) Atest 1 0
        = Atest 1 0 / Atest 0 0 ∧
    ∀ kk, 0 < kk → kk < 2 →
      jjLoop (fun k => k) 0 (Atest 0 0) 2 (2 - (0 + 1)) (0 + 1) Atest 1 kk
        = Atest 1 kk - Atest 0 kk * (Atest 1 0 / Atest 0 0)) :=
  ⟨fun _ _ h => h, by norm_num, by norm_num,
    C4_elimination_step Atest (fun k => k) 2 0 1 (fun _ _ h => h)
      (by norm_num) (by norm_num)⟩

/-- C5: on an already-factorized solver state, `solve` performs forward
substitution — the stored value at `b[p[ii]]` becomes
`b[p[ii]] - Σ_{kk<ii} L[p[ii]][kk] * b[p[kk]]` (with the updated values on
the right) — followed by backward substitution — the final value at
`b[p[ii]]` is the forward result minus `Σ_{kk>ii} U[p[ii]][kk] * x[p[kk]]`,
divided by the diagonal `U[p[ii]][ii]` — all in place on the right-hand-side
storage. -/
theorem C5_substitution_recurrences (s : matrixState) (b : Vec)
    (hfac : s.factorized = true) (hp : Function.Injective s.p) :
    ∀ i, i < s.rows →
      fwdLoop s.data s.p s.rows 0 b (s.p i)
          = b (s.p i) - ∑ kk ∈ Finset.range i,
              s.data (s.p i) kk * fwdLoop s.data s.p s.rows 0 b (s.p kk) ∧
      (solve s b).2 (s.p i)
          = (fwdLoop s.data s.p s.rows 0 b (s.p i)
              - ∑ kk ∈ Finset.Ico (i + 1) s.rows,
                  s.data (s.p i) kk * (solve s b).2 (s.p kk))
            / s.data (s.p i) i := by
  have hsolve : (solve s b).2 = bwdLoop s.data s.p s.rows s.rows s.rows 1
      (fwdLoop s.data s.p s.rows 0 b) := by
    simp [solve, hfac]
  intro i hi
  refine ⟨fwd_spec s.data s.p hp s.rows b i hi, ?_⟩
  rw [hsolve]
  exact bwd_spec s.data s.p s.rows hp _ i hi

/-- C5 witness: the substitution recurrences on a concrete factorized state
(the flag set by hand, identity permutation, `Agood` storage). -/
theorem C5_witness_concrete :
    (matrixState.mk 2 Agood (fun k => k) true).factorized = true ∧
    Function.Injective (matrixState.mk 2 Agood (fun k => k) true).p ∧
    (∀ i, i < (matrixState.mk 2 Agood (fun k => k) true).rows →
      fwdLoop Agood (fun k => k) 2 0 bgood ((fun k : ℕ => k) i)
          = bgood ((fun k : ℕ => k) i) - ∑ kk ∈ Finset.range i,
              Agood ((fun k : ℕ => k) i) kk *
                fwdLoop Agood (fun k => k) 2 0 bgood ((fun k : ℕ => k) kk) ∧
      (solve (matrixState.mk 2 Agood (fun k => k) true) bgood).2 ((fun k : ℕ => k) i)
          = (fwdLoop Agood (fun k => k) 2 0 bgood ((fun k : ℕ => k) i)
              - ∑ kk ∈ Finset.Ico (i + 1) 2,
                  Agood ((fun k : ℕ => k) i) kk *
                    (solve (matrixState.mk 2 Agood (fun k => k) true) bgood).2
                      ((fun k : ℕ => k) kk))
            / Agood ((fun k : ℕ => k) i) i) :=
  ⟨rfl, fun _ _ h => h,
    C5_substitution_recurrences (matrixState.mk 2 Agood (fun k => k) true) bgood
      rfl (fun _ _ h => h)⟩

/-- C6: after `factorize`, the permutation is a bijection of
`{0, …, rows-1}`: every entry is in range, entries at distinct in-range
positions differ, and every value below `rows` is attained (so each value
appears exactly once). -/
theorem C6_permutation_is_bijection (s : matrixState) :
    (∀ i, i < s.rows → (factorize s).p i < s.rows) ∧
    (∀ i j, i < s.rows → j < s.rows → (factorize s).p i = (factorize s).p j → i = j) ∧
    (∀ v, v < s.rows → ∃ i, i < s.rows ∧ (factorize s).p i = v) := by
  have h := factorize_permOK s
  exact ⟨fun i hi => h.lt hi, fun i j _ _ hij => h.1 hij, fun v hv => h.surj hv⟩

/-- C6 witness: the bijection property instantiated on the concrete 2×2
solver for `Atest` (whose factorization does swap the two rows). -/
theorem C6_witness_concrete :
    (∀ i, i < 2 → (factorize (mkMatrix 2 Atest)).p i < 2) ∧
    (∀ i j, i < 2 → j < 2 →
      (factorize (mkMatrix 2 Atest)).p i = (factorize (mkMatrix 2 Atest)).p j → i = j) ∧
    (∀ v, v < 2 → ∃ i, i < 2 ∧ (factorize (mkMatrix 2 Atest)).p i = v) :=
  C6_permutation_is_bijection (mkMatrix 2 Atest)

/-- C7: the `factorized` flag gates factorization.  A freshly constructed
solver has the flag `false`; `factorize` sets it; the first `solve` call
factorizes exactly when the flag is unset; after any `solve` call the flag
is `true`; and a subsequent `solve` call leaves the whole solver state —
matrix storage, permutation and flag — unchanged, mutating only the
supplied right-hand side. -/
theorem C7_lazy_factorization_flag (n : ℕ) (d : Mat) (s : matrixState) (b b2 : Vec) :
    (mkMatrix n d).factorized = false ∧
    (factorize s).factorized = true ∧
    (solve s b).1 = (if s.factorized then s else factorize s) ∧
    (solve s b).1.factorized = true ∧
    (solve (solve s b).1 b2).1 = (solve s b).1 := by
  have hflag : (solve s b).1.factorized = true := by
    show (if s.factorized then s else factorize s).factorized = true
    cases hs : s.factorized
    · rw [if_neg (by simp [hs])]
      rfl
    · rw [if_pos (by simp [hs])]
      exact hs
  refine ⟨rfl, rfl, rfl, hflag, ?_⟩
  show (if (solve s b).1.factorized then (solve s b).1 else factorize (solve s b).1)
      = (solve s b).1
  rw [if_pos (by simp [hflag])]

/-- C8: reusing the cached factorization is exact.  Solving `b2` on a solver
instance that already solved `b1` gives precisely the result of solving `b2`
on an independent fresh instance for the same matrix, and repeating `solve`
with the same right-hand-side content equals factorizing fresh — the model
is deterministic and the second call replays the identical arithmetic. -/
theorem C8_cached_factorization_equivalence (n : ℕ) (d : Mat) (b1 b2 : Vec) :
    (solve (solve (mkMatrix n d) b1).1 b2).2 = (solve (mkMatrix n d) b2).2 ∧
    (solve (solve (mkMatrix n d) b1).1 b1).2 = (solve (mkMatrix n d) b1).2 := by
  have h : (solve (mkMatrix n d) b1).1 = factorize (mkMatrix n d) := rfl
  constructor <;> (rw [h]; rfl)

/-! ### Transpose lemmas (claim C10) -/

theorem transIFill_col (src : Mat) (j : ℕ) :
    ∀ (fuel i : ℕ) (R : Mat) {r c : ℕ}, c ≠ j →
      transIFill src j fuel i R r c = R r c := by
  intro fuel
  induction fuel with
  | zero => intro i R r c _; rfl
  | succ fuel ih =>
    intro i R r c hc
    rw [show transIFill src j (fuel + 1) i R =
        transIFill src j fuel (i + 1) (updM R i j (src j i)) from rfl,
      ih _ _ hc, updM_col_ne _ _ _ _ hc]

theorem transIFill_row_lt (src : Mat) (j : ℕ) :
    ∀ (fuel i : ℕ) (R : Mat) {r c : ℕ}, r < i →
      transIFill src j fuel i R r c = R r c := by
  intro fuel
  induction fuel with
  | zero => intro i R r c _; rfl
  | succ fuel ih =>
    intro i R r c hr
    rw [show transIFill src j (fuel + 1) i R =
        transIFill src j fuel (i + 1) (updM R i j (src j i)) from rfl,
      ih _ _ (by omega : r < i + 1), updM_row_ne _ _ _ _ (by omega : r ≠ i)]

theorem transIFill_act (src : Mat) (j : ℕ) :
    ∀ (fuel i : ℕ) (R : Mat) {r : ℕ}, i ≤ r → r < i + fuel →
      transIFill src j fuel i R r j = src j r := by
  intro fuel
  induction fuel with
  | zero => intro i R r _ _; omega
  | succ fuel ih =>
    intro i R r hir hrf
    rw [show transIFill src j (fuel + 1) i R =
        transIFill src j fuel (i + 1) (updM R i j (src j i)) from rfl]
    rcases Nat.eq_or_lt_of_le hir with heq | hlt
    · subst heq
      rw [transIFill_row_lt src j fuel (i + 1) _ (by omega : i < i + 1), updM_same]
    · exact ih (i + 1) _ (by omega) (by omega)

theorem transJFill_col_lt (src : Mat) (rowsR : ℕ) :
    ∀ (fuel j0 : ℕ) (R : Mat) {r c : ℕ}, c < j0 →
      transJFill src rowsR fuel j0 R r c = R r c := by
  intro fuel
  induction fuel with
  | zero => intro j0 R r c _; rfl
  | succ fuel ih =>
    intro j0 R r c hc
    rw [show transJFill src rowsR (fuel + 1) j0 R =
        transJFill src rowsR fuel (j0 + 1) (transIFill src j0 rowsR 0 R) from rfl,
      ih _ _ (by omega : c < j0 + 1), transIFill_col _ _ _ _ _ (by omega : c ≠ j0)]

theorem transJFill_act (src : Mat) (rowsR : ℕ) :
    ∀ (fuel j0 : ℕ) (R : Mat) {r c : ℕ}, j0 ≤ c → c < j0 + fuel → r < rowsR →
      transJFill src rowsR fuel j0 R r c = src c r := by
  intro fuel
  induction fuel with
  | zero => intro j0 R r c _ _ _; omega
  | succ fuel ih =>
    intro j0 R r c hjc hcf hr
    rw [show transJFill src rowsR (fuel + 1) j0 R =
        transJFill src rowsR fuel (j0 + 1) (transIFill src j0 rowsR 0 R) from rfl]
    rcases Nat.eq_or_lt_of_le hjc with heq | hlt
    · subst heq
      rw [transJFill_col_lt src rowsR fuel (j0 + 1) _ (by omega : j0 < j0 + 1)]
      exact transIFill_act src j0 rowsR 0 R (Nat.zero_le r) (by omega)
    · exact ih (j0 + 1) _ (by omega) (by omega) hr

theorem transpose_entry (B : matF) :
    ∀ i j, i < B.cols → j < B.rows → (transpose B).data i j = B.data j i := by
  intro i j hi hj
  exact transJFill_act B.data B.cols B.rows 0 _ (Nat.zero_le j) (by omega) hi

/-- C10: `transpose` on an `r × c` matrix yields a `c × r` matrix whose
entry `(i, j)` is the source entry `(j, i)` for every in-range index pair,
and transposing twice restores the original matrix: equal row and column
counts and equal entries at every in-range position (which is exactly what
`==` on the dense container compares). -/
theorem C10_transpose_involutive (A : matF) :
    (transpose A).rows = A.cols ∧ (transpose A).cols = A.rows ∧
    (∀ i j, i < A.cols → j < A.rows → (transpose A).data i j = A.data j i) ∧
    (transpose (transpose A)).rows = A.rows ∧
    (transpose (transpose A)).cols = A.cols ∧
    (∀ i j, i < A.rows → j < A.cols →
      (transpose (transpose A)).data i j = A.data i j) := by
  refine ⟨rfl, rfl, transpose_entry A, rfl, rfl, ?_⟩
  intro i j hi hj
  rw [transpose_entry (transpose A) i j hi hj, transpose_entry A j i hj hi]

/-- C10 witness: the transpose properties instantiated on the 2×2 matrix
`Atest`, whose transpose swaps the off-diagonal entries. -/
theorem C10_witness_concrete :
    (transpose (matF.mk 2 2 Atest)).rows = 2 ∧
    (transpose (matF.mk 2 2 Atest)).cols = 2 ∧
    (∀ i j, i < 2 → j < 2 →
      (transpose (matF.mk 2 2 Atest)).data i j = Atest j i) ∧
    (transpose (transpose (matF.mk 2 2 Atest))).rows = 2 ∧
    (transpose (transpose (matF.mk 2 2 Atest))).cols = 2 ∧
    (∀ i j, i < 2 → j < 2 →
      (transpose (transpose (matF.mk 2 2 Atest))).data i j = Atest i j) :=
  C10_transpose_involutive (matF.mk 2 2 Atest)

/-- The specification's known small case: for `A = [[2,1],[1,3]]` and
`b = [3,5]` (no row interchange occurs) the solver stores exactly
`x = [4/5, 7/5]`, the rational value of the expected `x ≈ [0.8, 1.4]`. -/
theorem known_small_case :
    (solve (mkMatrix 2 Agood) bgood).2 0 = 4/5 ∧
    (solve (mkMatrix 2 Agood) bgood).2 1 = 7/5 := by
  constructor <;>
    norm_num [solve, mkMatrix, factorize, iiLoop, imaxOf, pivotScan, swapFun, jjLoop,
      kkLoop, updM, fwdLoop, bwdLoop, innerSub, updV, Agood, bgood]

end MatrixCpp
